import Mathlib

/-!
Verification development for the `clog` package of the shifta commit log.

The Go sources are embedded shallowly:
* machine `uint64` values are `Nat`, with an explicit `% 2 ^ 64` wherever the
  Go code can overflow (running totals in the cleaner, the `age` subtraction);
  individual file sizes and payload lengths are plain `Nat`, since a single
  file on disk cannot reach `2 ^ 64` bytes;
* the filesystem side effects are made explicit: a segment carries the byte
  contents of its backing file (`data`), the outcome of a future `Delete`
  call (`deleteFails`), and each append receives the outcome of the
  underlying `Write`/`Truncate`/`Sync` calls as an `IOEnv` value;
* the wall clock `tNow()` is passed explicitly as a `now : Nat` argument.
-/

namespace Shifta

/-- `2 ^ 64`, the modulus of Go's `uint64` arithmetic. -/
def u64Size : Nat := 2 ^ 64

/-- Wrapping `uint64` addition, as performed by `total + s.currentSegBytes`
in `cleaner.go`. -/
def wadd (a b : Nat) : Nat := (a + b) % u64Size

/-- In-memory state of one `segment` (segment.go) together with the
filesystem state it owns: `data` is the byte content of the backing file and
`deleteFails` records whether a future `os.Remove` of that file would fail. -/
structure Segment where
  baseOffset : Nat
  currentSegBytes : Nat
  maxSegBytes : Nat
  age : Nat
  closed : Bool
  data : List Nat
  deleteFails : Bool
deriving DecidableEq

/-! ## Cleaner (cleaner.go)

`cleanByBytes` and `cleanByAge` are the same loop with a different measure
(`currentSegBytes` versus `age`), so the loop is translated once,
parameterised by the measure `f`.  The Go loop walks the slice from index
`len-1` down to `0`; here the walk consumes `segs.reverse`.  `walkKeep`
returns the included segments in visit order (newest first) — the Go code
prepends each included segment to `cleanedSegs`, which equals the reverse of
this list.  `walkEvict` returns the complementary, evicted segments in visit
order, which is exactly the order of the deletion loop (reverse index order,
skipping the indices recorded in `indexOfCleanedSeg`). -/

/-- The inclusion walk of `cleaner.go`: visit segments newest-first; include
a segment when the running total so far is below the budget; add its measure
to the running total afterwards in either case (`uint64` wrapping add). -/
def walkKeep (f : Segment → Nat) (budget : Nat) : Nat → List Segment → List Segment
  | _, [] => []
  | total, s :: rest =>
    if total < budget then s :: walkKeep f budget (wadd total (f s)) rest
    else walkKeep f budget (wadd total (f s)) rest

/-- The complementary walk: the segments not included by `walkKeep`, in the
order the deletion loop of `cleaner.go` visits them. -/
def walkEvict (f : Segment → Nat) (budget : Nat) : Nat → List Segment → List Segment
  | _, [] => []
  | total, s :: rest =>
    if total < budget then walkEvict f budget (wadd total (f s)) rest
    else s :: walkEvict f budget (wadd total (f s)) rest

/-- One cleaner pass (the common body of `cleanByBytes` and `cleanByAge`).
Returns the list the Go function returns, together with `some s` when
deleting evicted segment `s` failed (the Go function then returns that
error, and the *original* input slice). -/
def cleanBy (f : Segment → Nat) (budget : Nat) (segs : List Segment) :
    List Segment × Option Segment :=
  if segs.length ≤ 1 then (segs, none)
  else
    let cleanedSegs := (walkKeep f budget 0 segs.reverse).reverse
    if 0 < cleanedSegs.length then
      match (walkEvict f budget 0 segs.reverse).find? (fun s => s.deleteFails) with
      | some s => (segs, some s)
      | none => (cleanedSegs, none)
    else (segs, none)

/-- `cleaner.cleanByBytes`: measure is `currentSegBytes`, budget `maxLogBytes`. -/
def cleanByBytes (maxLogBytes : Nat) (segs : List Segment) :
    List Segment × Option Segment :=
  cleanBy (fun s => s.currentSegBytes) maxLogBytes segs

/-- `cleaner.cleanByAge`: measure is `age`, budget `maxLogAge.Nanoseconds()`. -/
def cleanByAge (maxLogAgeNs : Nat) (segs : List Segment) :
    List Segment × Option Segment :=
  cleanBy (fun s => s.age) maxLogAgeNs segs

/-- `cleaner.clean`: byte pass, then age pass; a failing pass aborts the
whole clean and the Go function returns `(nil, err)`. -/
def clean (maxLogBytes maxLogAgeNs : Nat) (segs : List Segment) :
    Except Segment (List Segment) :=
  if segs.length ≤ 1 then .ok segs
  else
    match cleanByBytes maxLogBytes segs with
    | (_, some s) => .error s
    | (segs1, none) =>
      match cleanByAge maxLogAgeNs segs1 with
      | (_, some s) => .error s
      | (segs2, none) => .ok segs2

/-! ### Spec-side characterization of the survivor set

The spec describes the survivor set pointwise: a segment is kept exactly
when the running total accumulated from the strictly newer segments is
below the budget.  Since the input list is ordered oldest to newest, the
strictly newer segments of an element are precisely the remainder of the
list after it. -/

/-- `uint64` total of the measures of a list of segments. -/
def wsum (f : Segment → Nat) (l : List Segment) : Nat :=
  ((l.map f).sum) % u64Size

/-- Survivors as the spec words them: keep a segment iff the (`uint64`)
total of the measures of all strictly newer segments is below the budget. -/
def keptSpec (f : Segment → Nat) (budget : Nat) : List Segment → List Segment
  | [] => []
  | s :: rest =>
    if wsum f rest < budget then s :: keptSpec f budget rest
    else keptSpec f budget rest

/-- The complement of `keptSpec`: the segments marked for deletion, oldest
first. -/
def evictedSpec (f : Segment → Nat) (budget : Nat) : List Segment → List Segment
  | [] => []
  | s :: rest =>
    if wsum f rest < budget then evictedSpec f budget rest
    else s :: evictedSpec f budget rest

/-! ### Agreement between the walk and the characterization -/

/-- Generalisation of `keptSpec` to a starting total `t` (measures of
segments even newer than the whole list, already accumulated). -/
def keptGen (f : Segment → Nat) (budget t : Nat) : List Segment → List Segment
  | [] => []
  | s :: rest =>
    if wadd t ((rest.map f).sum) < budget then s :: keptGen f budget t rest
    else keptGen f budget t rest

/-- Generalisation of `evictedSpec` to a starting total `t`. -/
def evictedGen (f : Segment → Nat) (budget t : Nat) : List Segment → List Segment
  | [] => []
  | s :: rest =>
    if wadd t ((rest.map f).sum) < budget then evictedGen f budget t rest
    else s :: evictedGen f budget t rest

/-! ## Segment operations (segment.go) -/

/-- `newSegment` (segment.go): `existing` is the content of the file found
(or created empty) at `<baseOffset>.log`; `currentSegBytes` is populated
from the file size (`fi.Size()`), and `age` is clamped to `0` when
`baseOffset` lies in the future, as the source comment demands. -/
def newSegment (now baseOffset maxSegBytes : Nat) (existing : List Nat) : Segment :=
  { baseOffset := baseOffset
    currentSegBytes := existing.length
    maxSegBytes := maxSegBytes
    age := if now < baseOffset then 0 else now - baseOffset
    closed := false
    data := existing
    deleteFails := false }

/-- `segment.IsFull`: `currentSegBytes >= maxSegBytes`. -/
def Segment.IsFull (s : Segment) : Bool := s.maxSegBytes ≤ s.currentSegBytes

/-- Outcome of the underlying file `Write` call inside `segment.Append`:
`n` bytes reported written (the `io.Writer` contract keeps `n` at most the
payload length, enforced here with `min`) and whether an error was
reported. -/
structure WriteOutcome where
  n : Nat
  errW : Bool
deriving DecidableEq

/-- Outcomes of the I/O calls a single `segment.Append` performs. -/
structure IOEnv where
  write : WriteOutcome
  truncateOk : Bool
  syncOk : Bool
deriving DecidableEq

/-- The error kinds `segment.Append` can return. -/
inductive AppendErr
  | segmentWrite
  | partialWriteTruncate
  | segmentSync
deriving DecidableEq

/-- An I/O environment in which every call succeeds and the write is full. -/
def ioOk (len : Nat) : IOEnv := ⟨⟨len, false⟩, true, true⟩

/-- `segment.Append` (segment.go).  The file grows by the `n` bytes the
write reported; a reported write error returns immediately; a short write
without an error truncates the file back to the pre-write
`currentSegBytes`; a full write bumps `currentSegBytes` and refreshes
`age := tNow() - baseOffset` in wrapping `uint64` arithmetic (the source
performs no clamping here); finally the file is synced. -/
def Segment.Append (now : Nat) (io : IOEnv) (s : Segment) (b : List Nat) :
    Segment × Option AppendErr :=
  let n := min io.write.n b.length
  let s1 : Segment := { s with data := s.data ++ b.take n }
  if io.write.errW then (s1, some .segmentWrite)
  else if n ≠ b.length then
    if io.truncateOk then
      let s2 : Segment := { s1 with data := s1.data.take s.currentSegBytes }
      if io.syncOk then (s2, none) else (s2, some .segmentSync)
    else (s1, some .partialWriteTruncate)
  else
    let s2 : Segment := { s1 with
      currentSegBytes := s.currentSegBytes + n
      age := (now + u64Size - s.baseOffset) % u64Size }
    if io.syncOk then (s2, none) else (s2, some .segmentSync)

/-! ## Log operations (commitlog.go, embedded in example_test.go) -/

/-- The error kinds surfaced by the log layer. -/
inductive ClogErr
  | notInitialized
  | noActiveSegment
  | parseFilename
  | seg (e : AppendErr)
deriving DecidableEq

/-- `Clog`: the log state the claims touch (path and lock omitted — the
lock only serialises access and the path only names the directory). -/
structure Clog where
  initialized : Bool
  maxSegBytes : Nat
  maxLogBytes : Nat
  maxLogAgeNs : Nat
  segments : List Segment
deriving DecidableEq

/-- `Clog.activeSegment`: the last element of the segment list. -/
def Clog.activeSegment (l : Clog) : Option Segment := l.segments.getLast?

/-- `Clog.toSplit`: split when there is no active segment or it is full. -/
def Clog.toSplit (l : Clog) : Bool :=
  match l.activeSegment with
  | none => true
  | some a => a.IsFull

/-- `Clog.split`: create a fresh segment with `baseOffset = tNow()`, append
it to the list, then close the previously active segment (close errors are
ignored; `newSegment` cannot fail in this model). -/
def Clog.split (now : Nat) (l : Clog) : Clog :=
  let seg := newSegment now now l.maxSegBytes []
  match l.segments.getLast? with
  | none => { l with segments := [seg] }
  | some a =>
    { l with segments := l.segments.dropLast ++ [{ a with closed := true }, seg] }

/-- `Clog.Append`: possibly split, then delegate the write to the active
segment. -/
def Clog.Append (now : Nat) (io : IOEnv) (l : Clog) (b : List Nat) :
    Clog × Option ClogErr :=
  if !l.initialized then (l, some .notInitialized)
  else
    let l1 := if l.toSplit then l.split now else l
    match l1.segments.getLast? with
    | none => (l1, some .noActiveSegment)
    | some a =>
      match Segment.Append now io a b with
      | (a2, e) => ({ l1 with segments := l1.segments.dropLast ++ [a2] }, e.map .seg)

/-- `Clog.Clean`: replace the segment list with the cleaner's result; when
the cleaner errors, return the error and leave the list unchanged. -/
def Clog.Clean (l : Clog) : Clog × Option Segment :=
  match clean l.maxLogBytes l.maxLogAgeNs l.segments with
  | .error s => (l, some s)
  | .ok c => ({ l with segments := c }, none)

/-! ## Read (commitlog.go) -/

/-- The internal read-ceiling constant of commitlog.go: 64 MB. -/
def internalMaxToRead : Nat := 64 * 1000 * 1000

/-- Go's conversion of a `uint64` value to the signed 64-bit `int`. -/
def intOfUint64 (v : Nat) : Int :=
  if v < 2 ^ 63 then (v : Int) else (v : Int) - 2 ^ 64

/-- The effective ceiling computed at the top of `Clog.Read`:
`var max int = int(maxToRead)`, then `max <= 0` defaults to the internal
constant and `max > internalMaxToRead*10` caps at ten times the constant. -/
def effectiveMaxToRead (maxToRead : Nat) : Nat :=
  let m := intOfUint64 maxToRead
  if m ≤ 0 then internalMaxToRead
  else if internalMaxToRead * 10 < m then internalMaxToRead * 10
  else m.toNat

/-- The loop of `Clog.Read`: visit segments in list order, read each whose
`baseOffset` exceeds the offset in full, and break once the accumulated
size reaches the ceiling. -/
def readLoop (offset maxR : Nat) : List Segment → List Nat → Nat → Nat →
    List Nat × Nat
  | [], dataRead, lastReadOffset, _ => (dataRead, lastReadOffset)
  | s :: rest, dataRead, lastReadOffset, sizeReadSofar =>
    if offset < s.baseOffset then
      let dataRead2 := dataRead ++ s.data
      let size2 := sizeReadSofar + s.data.length
      if maxR ≤ size2 then (dataRead2, s.baseOffset)
      else readLoop offset maxR rest dataRead2 s.baseOffset size2
    else readLoop offset maxR rest dataRead lastReadOffset sizeReadSofar

/-- `Clog.Read` (with no per-segment read errors): returns the payload and
`lastReadOffset`. -/
def Clog.Read (l : Clog) (offset maxToRead : Nat) : List Nat × Nat :=
  readLoop offset (effectiveMaxToRead maxToRead) l.segments [] 0 0

/-- The segments `Read(offset)` selects according to the spec: base offset
strictly greater than the offset. -/
def qualifying (offset : Nat) (segs : List Segment) : List Segment :=
  segs.filter (fun s => offset < s.baseOffset)

/-- Total size of the data lying past the offset. -/
def qualTotal (offset : Nat) (segs : List Segment) : Nat :=
  ((qualifying offset segs).map (fun s => s.data.length)).sum

/-- The result `Read(offset)` would produce with no ceiling, as the claim
words it: the qualifying segments' contents concatenated in list order,
paired with the last qualifying segment's base offset (`0` when none
qualifies). -/
def readAllSpec (offset : Nat) (segs : List Segment) : List Nat × Nat :=
  (((qualifying offset segs).map (fun s => s.data)).flatten,
    match (qualifying offset segs).getLast? with
    | none => 0
    | some s => s.baseOffset)

/-- The ceiling rule exactly as the claim words it: `0` defaults to the
internal constant; every other caller-supplied value is capped at ten times
the internal constant. -/
def claimedMaxToRead (maxToRead : Nat) : Nat :=
  if maxToRead = 0 then internalMaxToRead
  else min maxToRead (internalMaxToRead * 10)

/-! ## Opening a directory (Clog.open in commitlog.go) -/

/-- A directory entry: file name and byte content of the file. -/
structure DirEntry where
  name : List Char
  content : List Nat
deriving DecidableEq

/-- The `.log` file suffix. -/
def lFileSuffix : List Char := ['.', 'l', 'o', 'g']

/-- `filepath.Ext(name) == ".log"` — equivalent to the name ending in
`.log`, because the final dot of such a name is exactly the one before
`log`. -/
def hasLogSuffix (nm : List Char) : Bool := lFileSuffix.isSuffixOf nm

/-- `strings.TrimSuffix(name, ".log")`. -/
def trimLog (nm : List Char) : List Char :=
  if hasLogSuffix nm then nm.take (nm.length - 4) else nm

/-- Decimal digit test, `'0'` through `'9'`. -/
def isDigitChar (c : Char) : Bool := 48 ≤ c.toNat && c.toNat ≤ 57

/-- Numeric value of a decimal digit string, most significant digit
first. -/
def digitsVal (s : List Char) : Nat :=
  s.foldl (fun acc c => acc * 10 + (c.toNat - 48)) 0

/-- `strconv.ParseUint(s, 10, 64)`: digits only, non-empty, value below
`2 ^ 64` (overflow is an error). -/
def parseUint64 (s : List Char) : Option Nat :=
  if s.isEmpty then none
  else if s.all isDigitChar then
    if digitsVal s < u64Size then some (digitsVal s) else none
  else none

/-- The enumeration loop of `Clog.open`: build one segment per `.log`
entry, aborting on the first stem that does not parse. -/
def openLoop (maxSegBytes now : Nat) : List DirEntry → List Segment →
    Except Unit (List Segment)
  | [], acc => .ok acc
  | e :: rest, acc =>
    if hasLogSuffix e.name then
      match parseUint64 (trimLog e.name) with
      | none => .error ()
      | some n =>
        openLoop maxSegBytes now rest (acc ++ [newSegment now n maxSegBytes e.content])
    else openLoop maxSegBytes now rest acc

/-- `sort.Slice(segs, baseOffset <)`: a non-decreasing sort on the key;
modelled with `mergeSort` (the Go sort is unstable, but the theorems below
only sort lists with pairwise distinct keys, on which all correct sorts
agree). -/
def sortSegs (segs : List Segment) : List Segment :=
  segs.mergeSort (fun a b => a.baseOffset ≤ b.baseOffset)

/-- `Clog.open` (commitlog.go).  On a parse failure the in-memory segment
list is left untouched: `l.segments` is only assigned at the end. -/
def Clog.openDir (l : Clog) (now : Nat) (dir : List DirEntry) :
    Clog × Option ClogErr :=
  if !l.initialized then (l, some .notInitialized)
  else
    match openLoop l.maxSegBytes now dir [] with
    | .error _ => (l, some .parseFilename)
    | .ok segs =>
      if segs.isEmpty then
        ({ l with segments := [newSegment now now l.maxSegBytes []] }, none)
      else ({ l with segments := sortSegs segs }, none)

/-- Decimal representation of `n`: the stem `fmt.Sprintf` gives a segment
file in `newSegment`. -/
def natChars (n : Nat) : List Char :=
  if n = 0 then ['0']
  else (Nat.digits 10 n).reverse.map (fun d => Char.ofNat (48 + d))

/-- A conforming on-disk segment file name: canonical decimal `uint64`
stem plus the `.log` suffix. -/
def canonicalLogName (n : Nat) : List Char := natChars n ++ lFileSuffix

/-! ## Lemmas -/

theorem u64Size_pos : 0 < u64Size := by decide

theorem wadd_lt (a b : Nat) : wadd a b < u64Size :=
  Nat.mod_lt _ u64Size_pos

theorem wadd_snoc (t a b : Nat) : wadd t (b + a) = wadd (wadd t a) b := by
  simp only [wadd, Nat.mod_add_mod]
  congr 1
  ring

theorem keptGen_concat (f : Segment → Nat) (budget : Nat) (l : List Segment)
    (a : Segment) : ∀ t,
    keptGen f budget t (l ++ [a]) =
      keptGen f budget (wadd t (f a)) l ++ (if t % u64Size < budget then [a] else []) := by
  induction l with
  | nil =>
    intro t
    by_cases h : t % u64Size < budget <;>
      simp [keptGen, wadd, h]
  | cons s rest ih =>
    intro t
    simp only [List.cons_append, keptGen, List.append_eq, List.map_append,
      List.sum_append, List.map_cons, List.sum_cons, List.map_nil, List.sum_nil,
      Nat.add_zero, wadd_snoc, ih t]
    by_cases h : wadd (wadd t (f a)) ((rest.map f).sum) < budget <;> simp [h]

theorem evictedGen_concat (f : Segment → Nat) (budget : Nat) (l : List Segment)
    (a : Segment) : ∀ t,
    evictedGen f budget t (l ++ [a]) =
      evictedGen f budget (wadd t (f a)) l ++ (if t % u64Size < budget then [] else [a]) := by
  induction l with
  | nil =>
    intro t
    by_cases h : t % u64Size < budget <;>
      simp [evictedGen, wadd, h]
  | cons s rest ih =>
    intro t
    simp only [List.cons_append, evictedGen, List.append_eq, List.map_append,
      List.sum_append, List.map_cons, List.sum_cons, List.map_nil, List.sum_nil,
      Nat.add_zero, wadd_snoc, ih t]
    by_cases h : wadd (wadd t (f a)) ((rest.map f).sum) < budget <;> simp [h]

theorem walkKeep_reverse (f : Segment → Nat) (budget : Nat) (l : List Segment) :
    ∀ t, t < u64Size →
      (walkKeep f budget t l.reverse).reverse = keptGen f budget t l := by
  induction l using List.reverseRecOn with
  | nil => intro t _; simp [walkKeep, keptGen]
  | append_singleton l a ih =>
    intro t ht
    rw [List.reverse_append, List.reverse_singleton, List.singleton_append,
      keptGen_concat]
    rw [Nat.mod_eq_of_lt ht]
    by_cases h : t < budget <;>
      simp [walkKeep, h, ih (wadd t (f a)) (wadd_lt t (f a))]

theorem walkEvict_reverse (f : Segment → Nat) (budget : Nat) (l : List Segment) :
    ∀ t, t < u64Size →
      (walkEvict f budget t l.reverse).reverse = evictedGen f budget t l := by
  induction l using List.reverseRecOn with
  | nil => intro t _; simp [walkEvict, evictedGen]
  | append_singleton l a ih =>
    intro t ht
    rw [List.reverse_append, List.reverse_singleton, List.singleton_append,
      evictedGen_concat]
    rw [Nat.mod_eq_of_lt ht]
    by_cases h : t < budget <;>
      simp [walkEvict, h, ih (wadd t (f a)) (wadd_lt t (f a))]

theorem keptGen_zero (f : Segment → Nat) (budget : Nat) (l : List Segment) :
    keptGen f budget 0 l = keptSpec f budget l := by
  induction l with
  | nil => rfl
  | cons s rest ih =>
    simp only [keptGen, keptSpec, wadd, wsum, Nat.zero_add, ih]

theorem evictedGen_zero (f : Segment → Nat) (budget : Nat) (l : List Segment) :
    evictedGen f budget 0 l = evictedSpec f budget l := by
  induction l with
  | nil => rfl
  | cons s rest ih =>
    simp only [evictedGen, evictedSpec, wadd, wsum, Nat.zero_add, ih]

/-- The cleaner's survivor slice is exactly the spec's survivor set. -/
theorem walkKeep_eq_keptSpec (f : Segment → Nat) (budget : Nat) (segs : List Segment) :
    (walkKeep f budget 0 segs.reverse).reverse = keptSpec f budget segs := by
  rw [walkKeep_reverse f budget segs 0 u64Size_pos, keptGen_zero]

/-- The deletion loop visits exactly the spec's evicted set, newest first. -/
theorem walkEvict_eq_evictedSpec (f : Segment → Nat) (budget : Nat) (segs : List Segment) :
    walkEvict f budget 0 segs.reverse = (evictedSpec f budget segs).reverse := by
  conv_lhs => rw [← List.reverse_reverse (walkEvict f budget 0 segs.reverse)]
  rw [walkEvict_reverse f budget segs 0 u64Size_pos, evictedGen_zero]

theorem getLast?_cons_ne {α : Type} (a : α) (l : List α) (h : l ≠ []) :
    (a :: l).getLast? = l.getLast? := by
  cases l with
  | nil => exact absurd rfl h
  | cons b t => exact List.getLast?_cons_cons

theorem keptSpec_cons (f : Segment → Nat) (budget : Nat) (s : Segment)
    (rest : List Segment) :
    keptSpec f budget (s :: rest) =
      if wsum f rest < budget then s :: keptSpec f budget rest
      else keptSpec f budget rest := rfl

theorem keptSpec_ne_nil_getLast (f : Segment → Nat) (budget : Nat) (hb : 0 < budget) :
    ∀ l : List Segment, l ≠ [] →
      keptSpec f budget l ≠ [] ∧ (keptSpec f budget l).getLast? = l.getLast? := by
  intro l
  induction l with
  | nil => intro h; exact absurd rfl h
  | cons s rest ih =>
    intro _
    cases rest with
    | nil =>
      constructor <;> simp [keptSpec, wsum, hb]
    | cons x xs =>
      have ih' := ih (by simp)
      by_cases h : wsum f (x :: xs) < budget
      · rw [keptSpec_cons, if_pos h]
        refine ⟨by simp, ?_⟩
        rw [getLast?_cons_ne _ _ ih'.1, ih'.2, getLast?_cons_ne s (x :: xs) (by simp)]
      · rw [keptSpec_cons, if_neg h]
        exact ⟨ih'.1, by rw [ih'.2, getLast?_cons_ne s (x :: xs) (by simp)]⟩

theorem keptSpec_all (f : Segment → Nat) (budget : Nat) :
    ∀ l : List Segment, (l.map f).sum < budget → keptSpec f budget l = l := by
  intro l
  induction l with
  | nil => intro _; rfl
  | cons s rest ih =>
    intro h
    have hr : (rest.map f).sum ≤ ((s :: rest).map f).sum := by simp
    have hcond : wsum f rest < budget :=
      lt_of_le_of_lt (le_trans (Nat.mod_le _ _) hr) h
    rw [keptSpec_cons, if_pos hcond, ih (lt_of_le_of_lt hr h)]

theorem keptSpec_suffix (f : Segment → Nat) (budget : Nat) :
    ∀ l : List Segment, (l.map f).sum < u64Size →
      ∃ k, keptSpec f budget l = l.drop k := by
  intro l
  induction l with
  | nil => intro _; exact ⟨0, rfl⟩
  | cons s rest ih =>
    intro h
    have hr : (rest.map f).sum < u64Size := lt_of_le_of_lt (by simp) h
    by_cases hc : wsum f rest < budget
    · refine ⟨0, ?_⟩
      have hlt : (rest.map f).sum < budget := by
        rwa [wsum, Nat.mod_eq_of_lt hr] at hc
      rw [keptSpec_cons, if_pos hc, List.drop_zero, keptSpec_all f budget rest hlt]
    · obtain ⟨k, hk⟩ := ih hr
      exact ⟨k + 1, by rw [keptSpec_cons, if_neg hc, List.drop_succ_cons, hk]⟩

theorem keptSpec_mem (f : Segment → Nat) (budget : Nat) :
    ∀ l x, x ∈ keptSpec f budget l → x ∈ l := by
  intro l
  induction l with
  | nil => intro x hx; simp [keptSpec] at hx
  | cons s rest ih =>
    intro x hx
    by_cases h : wsum f rest < budget
    · rw [keptSpec_cons, if_pos h] at hx
      rcases List.mem_cons.mp hx with hx | hx
      · simp [hx]
      · simp [ih x hx]
    · rw [keptSpec_cons, if_neg h] at hx
      simp [ih x hx]

theorem walkEvict_mem (f : Segment → Nat) (budget : Nat) :
    ∀ l t x, x ∈ walkEvict f budget t l → x ∈ l := by
  intro l
  induction l with
  | nil => intro t x hx; simp [walkEvict] at hx
  | cons s rest ih =>
    intro t x hx
    by_cases h : t < budget
    · simp only [walkEvict, if_pos h] at hx
      simp [ih _ x hx]
    · simp only [walkEvict, if_neg h, List.mem_cons] at hx
      rcases hx with hx | hx
      · simp [hx]
      · simp [ih _ x hx]

theorem cleanBy_eq (f : Segment → Nat) (budget : Nat) (segs : List Segment)
    (h2 : 2 ≤ segs.length) (hb : 0 < budget)
    (hdel : ∀ s ∈ segs, s.deleteFails = false) :
    cleanBy f budget segs = (keptSpec f budget segs, none) := by
  have hne : segs ≠ [] := by
    intro h; rw [h] at h2; simp at h2
  have hk := keptSpec_ne_nil_getLast f budget hb segs hne
  have hfind : (walkEvict f budget 0 segs.reverse).find? (fun s => s.deleteFails) = none := by
    apply List.find?_eq_none.mpr
    intro x hx
    have hx' : x ∈ segs :=
      List.mem_reverse.mp (walkEvict_mem f budget segs.reverse 0 x hx)
    simp [hdel x hx']
  unfold cleanBy
  rw [if_neg (by omega)]
  simp only [walkKeep_eq_keptSpec, hfind]
  rw [if_pos (List.length_pos.mpr hk.1)]

theorem cleanBy_retains (f : Segment → Nat) (budget : Nat) (segs : List Segment)
    (hb : 0 < budget) (hne : segs ≠ [])
    (hdel : ∀ s ∈ segs, s.deleteFails = false) :
    ∃ res, cleanBy f budget segs = (res, none) ∧ res ≠ [] ∧
      res.getLast? = segs.getLast? ∧ ∀ x ∈ res, x ∈ segs := by
  by_cases h1 : segs.length ≤ 1
  · exact ⟨segs, by unfold cleanBy; rw [if_pos h1], hne, rfl, fun x hx => hx⟩
  · have hk := keptSpec_ne_nil_getLast f budget hb segs hne
    exact ⟨keptSpec f budget segs, cleanBy_eq f budget segs (by omega) hb hdel,
      hk.1, hk.2, fun x hx => keptSpec_mem f budget segs x hx⟩

theorem clean_retains (maxLogBytes maxLogAgeNs : Nat) (segs : List Segment)
    (hbB : 0 < maxLogBytes) (hbA : 0 < maxLogAgeNs) (hne : segs ≠ [])
    (hdel : ∀ s ∈ segs, s.deleteFails = false) :
    ∃ res, clean maxLogBytes maxLogAgeNs segs = .ok res ∧ res ≠ [] ∧
      res.getLast? = segs.getLast? := by
  by_cases h1 : segs.length ≤ 1
  · exact ⟨segs, by unfold clean; rw [if_pos h1], hne, rfl⟩
  · obtain ⟨r1, hr1, hr1ne, hr1last, hr1mem⟩ :=
      cleanBy_retains (fun s => s.currentSegBytes) maxLogBytes segs hbB hne hdel
    obtain ⟨r2, hr2, hr2ne, hr2last, _⟩ :=
      cleanBy_retains (fun s => s.age) maxLogAgeNs r1 hbA hr1ne
        (fun x hx => hdel x (hr1mem x hx))
    refine ⟨r2, ?_, hr2ne, by rw [hr2last, hr1last]⟩
    unfold clean
    rw [if_neg h1]
    simp only [cleanByBytes] at hr1 ⊢
    rw [hr1]
    simp only [cleanByAge] at hr2 ⊢
    rw [hr2]

theorem cleanBy_fst_cases (f : Segment → Nat) (budget : Nat) (segs : List Segment) :
    (cleanBy f budget segs).1 = segs ∨
      ((cleanBy f budget segs).1 = keptSpec f budget segs ∧
        keptSpec f budget segs ≠ []) := by
  unfold cleanBy
  by_cases h1 : segs.length ≤ 1
  · rw [if_pos h1]; left; rfl
  · rw [if_neg h1]
    simp only [walkKeep_eq_keptSpec]
    by_cases h2 : 0 < (keptSpec f budget segs).length
    · rw [if_pos h2]
      cases hf : (walkEvict f budget 0 segs.reverse).find? (fun s => s.deleteFails) with
      | some s => left; rfl
      | none => right; exact ⟨rfl, List.length_pos.mp h2⟩
    · rw [if_neg h2]; left; rfl

/-! ## Claim theorems -/

/-- C1: for a list of two or more segments (oldest to newest) and positive
budgets with no deletion failures, the byte pass walks newest to oldest
and keeps a segment exactly when the running (`uint64`) total of the bytes
of the strictly newer segments — accumulated after each inclusion decision
— is strictly below `max_log_bytes` (`keptSpec`), marking the complement
for deletion (`evictedSpec`, deleted newest first); consequently the
survivor set is non-empty, its tail is the original tail (the newest
segment is always included), and the full clean retains at least one
segment with the original tail. -/
theorem c1_cleanByBytes_matches_spec (maxLogBytes maxLogAgeNs : Nat)
    (segs : List Segment) (h2 : 2 ≤ segs.length) (hbB : 0 < maxLogBytes)
    (hbA : 0 < maxLogAgeNs) (hdel : ∀ s ∈ segs, s.deleteFails = false) :
    cleanByBytes maxLogBytes segs =
        (keptSpec (fun s => s.currentSegBytes) maxLogBytes segs, none) ∧
      walkEvict (fun s => s.currentSegBytes) maxLogBytes 0 segs.reverse =
        (evictedSpec (fun s => s.currentSegBytes) maxLogBytes segs).reverse ∧
      keptSpec (fun s => s.currentSegBytes) maxLogBytes segs ≠ [] ∧
      (keptSpec (fun s => s.currentSegBytes) maxLogBytes segs).getLast? =
        segs.getLast? ∧
      ∃ res, clean maxLogBytes maxLogAgeNs segs = .ok res ∧ res ≠ [] ∧
        res.getLast? = segs.getLast? := by
  have hne : segs ≠ [] := by
    intro h; rw [h] at h2; simp at h2
  have hk := keptSpec_ne_nil_getLast (fun s => s.currentSegBytes) maxLogBytes hbB segs hne
  exact ⟨cleanBy_eq _ maxLogBytes segs h2 hbB hdel,
    walkEvict_eq_evictedSpec _ maxLogBytes segs, hk.1, hk.2,
    clean_retains maxLogBytes maxLogAgeNs segs hbB hbA hne hdel⟩

/-- C1 witness: the theorem applied to a concrete two-segment list with
budgets 5 (byte) and 5 (age); the older segment is evicted because the
newer one already holds 7 bytes. -/
theorem c1_witness :
    2 ≤ ([⟨0, 2, 100, 1, false, [], false⟩, ⟨1, 7, 100, 1, false, [], false⟩] :
        List Segment).length ∧
      cleanByBytes 5 [⟨0, 2, 100, 1, false, [], false⟩, ⟨1, 7, 100, 1, false, [], false⟩] =
        (keptSpec (fun s => s.currentSegBytes) 5
          [⟨0, 2, 100, 1, false, [], false⟩, ⟨1, 7, 100, 1, false, [], false⟩], none) ∧
      keptSpec (fun s => s.currentSegBytes) 5
          [⟨0, 2, 100, 1, false, [], false⟩, ⟨1, 7, 100, 1, false, [], false⟩] ≠ [] := by
  refine ⟨by decide, ?_, ?_⟩
  · exact (c1_cleanByBytes_matches_spec 5 5 _ (by decide) (by decide) (by decide)
      (by decide)).1
  · exact (c1_cleanByBytes_matches_spec 5 5 _ (by decide) (by decide) (by decide)
      (by decide)).2.2.1

/-- C10 counterexample: with three segments of `2 ^ 63` bytes each and a
byte budget of 5, the running `uint64` total wraps to 0 at the oldest
segment, so the byte pass keeps the oldest and the newest segments while
deleting the middle one — the survivors are not a contiguous suffix, and
a segment is deleted while a strictly older one is retained. -/
theorem c10_counterexample :
    (cleanByBytes 5
        [⟨0, 2 ^ 63, 100, 0, false, [], false⟩, ⟨1, 2 ^ 63, 100, 0, false, [], false⟩,
          ⟨2, 2 ^ 63, 100, 0, false, [], false⟩]).1 =
      [⟨0, 2 ^ 63, 100, 0, false, [], false⟩, ⟨2, 2 ^ 63, 100, 0, false, [], false⟩] ∧
    (⟨0, 2 ^ 63, 100, 0, false, [], false⟩ : Segment) ∈
      (cleanByBytes 5
        [⟨0, 2 ^ 63, 100, 0, false, [], false⟩, ⟨1, 2 ^ 63, 100, 0, false, [], false⟩,
          ⟨2, 2 ^ 63, 100, 0, false, [], false⟩]).1 ∧
    (⟨1, 2 ^ 63, 100, 0, false, [], false⟩ : Segment) ∉
      (cleanByBytes 5
        [⟨0, 2 ^ 63, 100, 0, false, [], false⟩, ⟨1, 2 ^ 63, 100, 0, false, [], false⟩,
          ⟨2, 2 ^ 63, 100, 0, false, [], false⟩]).1 := by
  refine ⟨?_, ?_, ?_⟩ <;> decide

/-- C10 (amended): provided the running totals cannot wrap around the
`uint64` modulus (the plain sum of the byte and age measures stays below
`2 ^ 64`), each cleaner pass returns a contiguous suffix of its input —
so the relative order of the survivors is preserved and no segment is
deleted while a strictly older one survives — and survivors are non-empty
for a non-empty input. -/
theorem c10_survivors_suffix (maxLogBytes maxLogAgeNs : Nat) (segs : List Segment)
    (hB : (segs.map (fun s => s.currentSegBytes)).sum < u64Size)
    (hA : (segs.map (fun s => s.age)).sum < u64Size) :
    (∃ k, (cleanByBytes maxLogBytes segs).1 = segs.drop k) ∧
      (∃ k, (cleanByAge maxLogAgeNs segs).1 = segs.drop k) ∧
      (segs ≠ [] →
        (cleanByBytes maxLogBytes segs).1 ≠ [] ∧
          (cleanByAge maxLogAgeNs segs).1 ≠ []) := by
  have hBb := cleanBy_fst_cases (fun s => s.currentSegBytes) maxLogBytes segs
  have hAa := cleanBy_fst_cases (fun s => s.age) maxLogAgeNs segs
  refine ⟨?_, ?_, ?_⟩
  · rcases hBb with h | ⟨h, _⟩
    · exact ⟨0, by rw [cleanByBytes, h, List.drop_zero]⟩
    · obtain ⟨k, hk⟩ := keptSpec_suffix (fun s => s.currentSegBytes) maxLogBytes segs hB
      exact ⟨k, by rw [cleanByBytes, h, hk]⟩
  · rcases hAa with h | ⟨h, _⟩
    · exact ⟨0, by rw [cleanByAge, h, List.drop_zero]⟩
    · obtain ⟨k, hk⟩ := keptSpec_suffix (fun s => s.age) maxLogAgeNs segs hA
      exact ⟨k, by rw [cleanByAge, h, hk]⟩
  · intro hne
    constructor
    · rcases hBb with h | ⟨h, hkne⟩
      · rw [cleanByBytes, h]; exact hne
      · rw [cleanByBytes, h]; exact hkne
    · rcases hAa with h | ⟨h, hkne⟩
      · rw [cleanByAge, h]; exact hne
      · rw [cleanByAge, h]; exact hkne

/-- C10 witness: the amended theorem applied to a concrete three-segment
list whose byte and age sums stay far below `2 ^ 64`. -/
theorem c10_witness :
    (([⟨0, 9, 100, 1, false, [], false⟩, ⟨1, 9, 100, 1, false, [], false⟩,
        ⟨2, 9, 100, 1, false, [], false⟩] : List Segment).map
      (fun s => s.currentSegBytes)).sum < u64Size ∧
    (∃ k, (cleanByBytes 10
        [⟨0, 9, 100, 1, false, [], false⟩, ⟨1, 9, 100, 1, false, [], false⟩,
          ⟨2, 9, 100, 1, false, [], false⟩]).1 =
      ([⟨0, 9, 100, 1, false, [], false⟩, ⟨1, 9, 100, 1, false, [], false⟩,
        ⟨2, 9, 100, 1, false, [], false⟩] : List Segment).drop k) := by
  refine ⟨by decide, ?_⟩
  exact (c10_survivors_suffix 10 10 _ (by decide) (by decide)).1

/-- C7 counterexample: two segments with byte budget 5; the older segment
is evicted but its delete fails, so `cleanByBytes` returns the *original*
list (not the survivor set `[newest]`) together with the error, and
`clean` returns the bare error with no list at all — the claim's
"survivors are still returned" does not hold. -/
theorem c7_counterexample :
    cleanByBytes 5
        [⟨0, 10, 100, 0, false, [], true⟩, ⟨1, 10, 100, 0, false, [], false⟩] =
      ([⟨0, 10, 100, 0, false, [], true⟩, ⟨1, 10, 100, 0, false, [], false⟩],
        some ⟨0, 10, 100, 0, false, [], true⟩) ∧
    clean 5 5 [⟨0, 10, 100, 0, false, [], true⟩, ⟨1, 10, 100, 0, false, [], false⟩] =
      Except.error ⟨0, 10, 100, 0, false, [], true⟩ ∧
    ([⟨0, 10, 100, 0, false, [], true⟩, ⟨1, 10, 100, 0, false, [], false⟩] :
        List Segment) ≠ [⟨1, 10, 100, 0, false, [], false⟩] := by
  refine ⟨by decide, by rfl, by decide⟩

/-- C7 (amended): when deleting an evicted segment fails, the clean
operation is aborted with the surfaced deletion error, but the survivors
are *not* returned: the failing pass returns its original input list, the
cleaner's `clean` returns only the error, and `Clog.Clean` leaves the
in-memory segment list unchanged. -/
theorem c7_delete_failure_aborts (l : Clog) (s : Segment)
    (h2 : 2 ≤ l.segments.length) (hb : 0 < l.maxLogBytes)
    (hfail : (walkEvict (fun s => s.currentSegBytes) l.maxLogBytes 0
        l.segments.reverse).find? (fun s => s.deleteFails) = some s) :
    cleanByBytes l.maxLogBytes l.segments = (l.segments, some s) ∧
      clean l.maxLogBytes l.maxLogAgeNs l.segments = .error s ∧
      Clog.Clean l = (l, some s) := by
  have hne : l.segments ≠ [] := by
    intro h; rw [h] at h2; simp at h2
  have hk := keptSpec_ne_nil_getLast (fun s => s.currentSegBytes) l.maxLogBytes hb
    l.segments hne
  have hbytes : cleanByBytes l.maxLogBytes l.segments = (l.segments, some s) := by
    unfold cleanByBytes cleanBy
    rw [if_neg (by omega)]
    simp only [walkKeep_eq_keptSpec, hfail]
    rw [if_pos (List.length_pos.mpr hk.1)]
  have hclean : clean l.maxLogBytes l.maxLogAgeNs l.segments = .error s := by
    unfold clean
    rw [if_neg (by omega)]
    rw [hbytes]
  exact ⟨hbytes, hclean, by unfold Clog.Clean; rw [hclean]⟩

/-- C7 witness: the amended theorem applied to a concrete log whose older
segment refuses deletion. -/
theorem c7_witness :
    2 ≤ (Clog.mk true 100 5 5
        [⟨0, 10, 100, 0, false, [], true⟩, ⟨1, 10, 100, 0, false, [], false⟩]).segments.length ∧
      Clog.Clean (Clog.mk true 100 5 5
          [⟨0, 10, 100, 0, false, [], true⟩, ⟨1, 10, 100, 0, false, [], false⟩]) =
        (Clog.mk true 100 5 5
          [⟨0, 10, 100, 0, false, [], true⟩, ⟨1, 10, 100, 0, false, [], false⟩],
          some ⟨0, 10, 100, 0, false, [], true⟩) := by
  refine ⟨by decide, ?_⟩
  exact (c7_delete_failure_aborts _ _ (by decide) (by decide) (by decide)).2.2

theorem segAppend_ok (now : Nat) (s : Segment) (b : List Nat) :
    Segment.Append now (ioOk b.length) s b =
      ({ s with
          data := s.data ++ b
          currentSegBytes := s.currentSegBytes + b.length
          age := (now + u64Size - s.baseOffset) % u64Size }, none) := by
  unfold Segment.Append ioOk
  simp

theorem getLast?_snoc {α : Type} (l : List α) (a : α) :
    (l ++ [a]).getLast? = some a := by
  induction l with
  | nil => rfl
  | cons x t ih =>
    rw [List.cons_append, getLast?_cons_ne x (t ++ [a]) (by simp), ih]

/-- C3 counterexample: a write that reports 2 of 4 bytes *without* an error
is truncated back to the pre-write length, but `segment.Append` then
returns no error at all (truncate and sync succeed) — the claim's "the
append surfaces a short-write error to the caller" is false. -/
theorem c3_counterexample :
    (Segment.Append 7 ⟨⟨2, false⟩, true, true⟩
        ⟨10, 3, 100, 0, false, [1, 2, 3], false⟩ [4, 5, 6, 7]).2 = none ∧
      (Segment.Append 7 ⟨⟨2, false⟩, true, true⟩
        ⟨10, 3, 100, 0, false, [1, 2, 3], false⟩ [4, 5, 6, 7]).1 =
        ⟨10, 3, 100, 0, false, [1, 2, 3], false⟩ := by
  exact ⟨by decide, by decide⟩

/-- C3 (amended): for every append in which the underlying write reports
fewer bytes than the payload length *without reporting a write error*, the
segment file is truncated back to the pre-write `current_bytes`
(`current_bytes` and `age` stay unchanged, restoring
file length = `current_bytes`), and the append returns success — no
short-write error is surfaced (only a truncate or sync failure would
surface). -/
theorem c3_short_write_truncate (now : Nat) (io : IOEnv) (s : Segment)
    (b : List Nat) (hshort : io.write.n < b.length)
    (herr : io.write.errW = false) (htr : io.truncateOk = true)
    (hsync : io.syncOk = true) (hinv : s.data.length = s.currentSegBytes) :
    Segment.Append now io s b = (s, none) := by
  have hn : min io.write.n b.length = io.write.n :=
    Nat.min_eq_left (le_of_lt hshort)
  have htake : (s.data ++ b.take io.write.n).take s.currentSegBytes = s.data := by
    rw [← hinv, List.take_left]
  unfold Segment.Append
  rw [herr, hn]
  simp only [Bool.false_eq_true, if_false]
  rw [if_pos (Nat.ne_of_lt hshort), if_pos htr, htake, if_pos hsync]

/-- C3 witness: the amended theorem applied to a concrete short write (2 of
4 bytes reported, no error), leaving the segment exactly as before. -/
theorem c3_witness :
    (2 : Nat) < ([4, 5, 6, 7] : List Nat).length ∧
      Segment.Append 7 ⟨⟨2, false⟩, true, true⟩
        ⟨10, 3, 100, 0, false, [1, 2, 3], false⟩ [4, 5, 6, 7] =
        (⟨10, 3, 100, 0, false, [1, 2, 3], false⟩, none) := by
  exact ⟨by decide, c3_short_write_truncate 7 ⟨⟨2, false⟩, true, true⟩
    ⟨10, 3, 100, 0, false, [1, 2, 3], false⟩ [4, 5, 6, 7]
    (by decide) (by decide) (by decide) (by decide) (by decide)⟩

/-- C4: the slip in `segment.Append` — it refreshes
`age = tNow() - baseOffset` with no clamp, unlike `newSegment`: with
`baseOffset = 10` and the clock back at 7 (skew, or a file restored from
the future), a successful append wraps `age` to `2 ^ 64 - 3`, while
`newSegment` at the same clock clamps the age to 0 as the source comment
demands. -/
theorem c4_age_wraps_on_append :
    (Segment.Append 7 (ioOk 3)
        ⟨10, 0, 100, 0, false, [], false⟩ [1, 2, 3]).1.age = 2 ^ 64 - 3 ∧
      (newSegment 7 10 100 []).age = 0 := by
  exact ⟨by decide, by decide⟩

/-- C9: every successful append (no write, truncate or sync error — the
returned error is `none`) preserves the invariant that the backing file
length equals the tracked `current_bytes`. -/
theorem c9_append_preserves_length_invariant (now : Nat) (io : IOEnv)
    (s s2 : Segment) (b : List Nat) (hinv : s.data.length = s.currentSegBytes)
    (hok : Segment.Append now io s b = (s2, none)) :
    s2.data.length = s2.currentSegBytes := by
  simp only [Segment.Append] at hok
  by_cases he : io.write.errW = true
  · rw [if_pos he] at hok
    simpa using congrArg Prod.snd hok
  · rw [if_neg he] at hok
    by_cases hfull : min io.write.n b.length = b.length
    · rw [if_neg (not_not_intro hfull)] at hok
      by_cases hs : io.syncOk = true
      · rw [if_pos hs, Prod.mk.injEq] at hok
        obtain ⟨h1, _⟩ := hok
        rw [← h1]
        simp only [List.length_append, List.length_take]
        omega
      · rw [if_neg hs] at hok
        simpa using congrArg Prod.snd hok
    · rw [if_pos hfull] at hok
      by_cases ht : io.truncateOk = true
      · rw [if_pos ht] at hok
        by_cases hs : io.syncOk = true
        · rw [if_pos hs, Prod.mk.injEq] at hok
          obtain ⟨h1, _⟩ := hok
          rw [← h1]
          simp only [List.length_take, List.length_append]
          omega
        · rw [if_neg hs] at hok
          simpa using congrArg Prod.snd hok
      · rw [if_neg ht] at hok
        simpa using congrArg Prod.snd hok

/-- C9 witness: the theorem applied to a concrete successful full append of
two bytes onto a one-byte segment. -/
theorem c9_witness :
    ([5] : List Nat).length = (1 : Nat) ∧
      (Segment.Append 9 (ioOk 2) ⟨3, 1, 100, 0, false, [5], false⟩
        [6, 7]).1.data.length =
      (Segment.Append 9 (ioOk 2) ⟨3, 1, 100, 0, false, [5], false⟩
        [6, 7]).1.currentSegBytes := by
  refine ⟨by decide, ?_⟩
  exact c9_append_preserves_length_invariant 9 (ioOk 2)
    ⟨3, 1, 100, 0, false, [5], false⟩
    ((Segment.Append 9 (ioOk 2) ⟨3, 1, 100, 0, false, [5], false⟩ [6, 7]).1)
    [6, 7] (by decide) (by decide)

/-- C8: `is_full` is true iff `current_bytes >= max_bytes`; an append whose
payload exceeds `max_bytes` is still accepted and written in full into a
non-full tail (no segment is created mid-append, `current_bytes` may end
beyond `max_bytes` leaving the tail full); and when the tail is already
full at the start of the next append, the log first splits — the old tail
is closed and a fresh segment with `base_offset = now` becomes the active
tail and receives the whole payload. -/
theorem c8_oversized_append_roll (now : Nat) (l : Clog) (b : List Nat)
    (a : Segment) (pre : List Segment) (hseg : l.segments = pre ++ [a])
    (hinit : l.initialized = true) :
    (a.IsFull = true ↔ a.maxSegBytes ≤ a.currentSegBytes) ∧
      (a.IsFull = false →
        Clog.Append now (ioOk b.length) l b =
            ({ l with segments :=
              pre ++ [(Segment.Append now (ioOk b.length) a b).1] }, none) ∧
          (Segment.Append now (ioOk b.length) a b).1.currentSegBytes =
            a.currentSegBytes + b.length ∧
          (Segment.Append now (ioOk b.length) a b).1.data = a.data ++ b ∧
          (a.maxSegBytes ≤ a.currentSegBytes + b.length →
            (Segment.Append now (ioOk b.length) a b).1.IsFull = true)) ∧
      (a.IsFull = true →
        Clog.Append now (ioOk b.length) l b =
            ({ l with segments := pre ++ [{ a with closed := true },
              (Segment.Append now (ioOk b.length)
                (newSegment now now l.maxSegBytes []) b).1] }, none) ∧
          (Segment.Append now (ioOk b.length)
            (newSegment now now l.maxSegBytes []) b).1.baseOffset = now ∧
          (Segment.Append now (ioOk b.length)
            (newSegment now now l.maxSegBytes []) b).1.currentSegBytes = b.length ∧
          (Segment.Append now (ioOk b.length)
            (newSegment now now l.maxSegBytes []) b).1.data = b) := by
  have hlast : l.segments.getLast? = some a := by rw [hseg, getLast?_snoc]
  have hts : l.toSplit = a.IsFull := by
    unfold Clog.toSplit Clog.activeSegment
    rw [hlast]
  refine ⟨?_, ?_, ?_⟩
  · unfold Segment.IsFull
    simp
  · intro hnf
    unfold Clog.Append
    rw [hinit, hts, hnf]
    simp only [Bool.not_true, Bool.false_eq_true, if_false]
    rw [hlast, segAppend_ok, hseg, List.dropLast_concat]
    refine ⟨by simp [hinit, segAppend_ok], rfl, rfl, ?_⟩
    intro hge
    unfold Segment.IsFull
    simpa using hge
  · intro hf
    have hsplit : Clog.split now l =
        { l with segments := pre ++ [{ a with closed := true },
          newSegment now now l.maxSegBytes []] } := by
      unfold Clog.split
      rw [hlast, hseg, List.dropLast_concat]
    unfold Clog.Append
    rw [hinit, hts, hf]
    simp only [Bool.not_true, Bool.false_eq_true, if_false, if_true]
    rw [hsplit]
    have hlast2 : (pre ++ [{ a with closed := true },
        newSegment now now l.maxSegBytes []]).getLast? =
        some (newSegment now now l.maxSegBytes []) := by
      rw [show pre ++ [{ a with closed := true },
          newSegment now now l.maxSegBytes []] =
        (pre ++ [{ a with closed := true }]) ++
          [newSegment now now l.maxSegBytes []] by simp, getLast?_snoc]
    have hdrop : (pre ++ [{ a with closed := true },
        newSegment now now l.maxSegBytes []]).dropLast =
        pre ++ [{ a with closed := true }] := by
      rw [show pre ++ [{ a with closed := true },
          newSegment now now l.maxSegBytes []] =
        (pre ++ [{ a with closed := true }]) ++
          [newSegment now now l.maxSegBytes []] by simp, List.dropLast_concat]
    simp only [hlast2]
    rw [segAppend_ok, hdrop]
    refine ⟨by simp [hinit, segAppend_ok], rfl, ?_, rfl⟩
    simp [newSegment]

/-- C8 witness: the theorem applied to a concrete log whose single tail
segment is full (5 bytes with capacity 4), so the next 3-byte append splits
first and writes to the fresh segment. -/
theorem c8_witness :
    (Clog.mk true 4 100 100 [⟨1, 5, 4, 0, false, [9, 9, 9, 9, 9], false⟩]).segments =
        [] ++ [⟨1, 5, 4, 0, false, [9, 9, 9, 9, 9], false⟩] ∧
      Segment.IsFull ⟨1, 5, 4, 0, false, [9, 9, 9, 9, 9], false⟩ = true ∧
      Clog.Append 50 (ioOk 3)
          (Clog.mk true 4 100 100 [⟨1, 5, 4, 0, false, [9, 9, 9, 9, 9], false⟩])
          [1, 2, 3] =
        (Clog.mk true 4 100 100
          ([] ++ [⟨1, 5, 4, 0, true, [9, 9, 9, 9, 9], false⟩,
            (Segment.Append 50 (ioOk 3) (newSegment 50 50 4 []) [1, 2, 3]).1]), none) := by
  refine ⟨by decide, by decide, ?_⟩
  exact ((c8_oversized_append_roll 50
    (Clog.mk true 4 100 100 [⟨1, 5, 4, 0, false, [9, 9, 9, 9, 9], false⟩])
    [1, 2, 3] ⟨1, 5, 4, 0, false, [9, 9, 9, 9, 9], false⟩ []
    (by decide) (by decide)).2.2 (by decide)).1

theorem qualifying_cons_pos (offset : Nat) (s : Segment) (rest : List Segment)
    (h : offset < s.baseOffset) :
    qualifying offset (s :: rest) = s :: qualifying offset rest := by
  simp [qualifying, h]

theorem qualifying_cons_neg (offset : Nat) (s : Segment) (rest : List Segment)
    (h : ¬ offset < s.baseOffset) :
    qualifying offset (s :: rest) = qualifying offset rest := by
  simp [qualifying, h]

theorem qualTotal_cons_pos (offset : Nat) (s : Segment) (rest : List Segment)
    (h : offset < s.baseOffset) :
    qualTotal offset (s :: rest) = s.data.length + qualTotal offset rest := by
  simp [qualTotal, qualifying_cons_pos offset s rest h]

theorem qualTotal_cons_neg (offset : Nat) (s : Segment) (rest : List Segment)
    (h : ¬ offset < s.baseOffset) :
    qualTotal offset (s :: rest) = qualTotal offset rest := by
  simp [qualTotal, qualifying_cons_neg offset s rest h]

theorem readLoop_lower (offset maxR : Nat) :
    ∀ (segs : List Segment) (acc : List Nat) (last size0 : Nat),
      acc.length = size0 → maxR ≤ size0 + qualTotal offset segs →
      maxR ≤ (readLoop offset maxR segs acc last size0).1.length := by
  intro segs
  induction segs with
  | nil =>
    intro acc last size0 hacc hle
    simp only [readLoop]
    simp [qualTotal, qualifying] at hle
    omega
  | cons s rest ih =>
    intro acc last size0 hacc hle
    by_cases hq : offset < s.baseOffset
    · rw [qualTotal_cons_pos offset s rest hq] at hle
      simp only [readLoop, if_pos hq]
      by_cases hstop : maxR ≤ size0 + s.data.length
      · rw [if_pos hstop]
        simp
        omega
      · rw [if_neg hstop]
        exact ih (acc ++ s.data) s.baseOffset (size0 + s.data.length)
          (by simp [hacc]) (by omega)
    · rw [qualTotal_cons_neg offset s rest hq] at hle
      simp only [readLoop, if_neg hq]
      exact ih acc last size0 hacc hle

theorem readLoop_upper (offset maxR B : Nat) :
    ∀ (segs : List Segment) (acc : List Nat) (last size0 : Nat),
      acc.length = size0 → size0 < maxR →
      (∀ s ∈ segs, offset < s.baseOffset → s.data.length ≤ B) →
      (readLoop offset maxR segs acc last size0).1.length < maxR + B := by
  intro segs
  induction segs with
  | nil =>
    intro acc last size0 hacc hlt _
    simp only [readLoop]
    omega
  | cons s rest ih =>
    intro acc last size0 hacc hlt hB
    by_cases hq : offset < s.baseOffset
    · have hsB : s.data.length ≤ B := hB s (by simp) hq
      simp only [readLoop, if_pos hq]
      by_cases hstop : maxR ≤ size0 + s.data.length
      · rw [if_pos hstop]
        simp
        omega
      · rw [if_neg hstop]
        exact ih (acc ++ s.data) s.baseOffset (size0 + s.data.length)
          (by simp [hacc]) (by omega) (fun x hx h => hB x (by simp [hx]) h)
    · simp only [readLoop, if_neg hq]
      exact ih acc last size0 hacc hlt (fun x hx h => hB x (by simp [hx]) h)

theorem getLast?_cons_ne_none {α : Type} (a : α) (t : List α) :
    (a :: t).getLast? ≠ none := by
  induction t generalizing a with
  | nil => simp
  | cons b t ih =>
    rw [List.getLast?_cons_cons]
    exact ih b

theorem readLoop_no_stop (offset maxR : Nat) :
    ∀ (segs : List Segment) (acc : List Nat) (last size0 : Nat),
      acc.length = size0 → size0 + qualTotal offset segs < maxR →
      readLoop offset maxR segs acc last size0 =
        (acc ++ ((qualifying offset segs).map (fun s => s.data)).flatten,
          match (qualifying offset segs).getLast? with
          | none => last
          | some s => s.baseOffset) := by
  intro segs
  induction segs with
  | nil =>
    intro acc last size0 _ _
    simp [readLoop, qualifying]
  | cons s rest ih =>
    intro acc last size0 hacc hlt
    by_cases hq : offset < s.baseOffset
    · rw [qualTotal_cons_pos offset s rest hq] at hlt
      simp only [readLoop, if_pos hq]
      rw [if_neg (by omega : ¬ maxR ≤ size0 + s.data.length)]
      rw [ih (acc ++ s.data) s.baseOffset (size0 + s.data.length)
        (by simp [hacc]) (by omega)]
      rw [qualifying_cons_pos offset s rest hq]
      cases hqr : (qualifying offset rest).getLast? with
      | none =>
        have hnil : qualifying offset rest = [] := by
          cases hql : qualifying offset rest with
          | nil => rfl
          | cons a t =>
            rw [hql] at hqr
            exact absurd hqr (getLast?_cons_ne_none a t)
        simp [hnil]
      | some m =>
        have hne : qualifying offset rest ≠ [] := by
          intro h
          rw [h] at hqr
          simp at hqr
        rw [getLast?_cons_ne s _ hne, hqr]
        simp
    · rw [qualTotal_cons_neg offset s rest hq] at hlt
      simp only [readLoop, if_neg hq]
      rw [ih acc last size0 hacc hlt, qualifying_cons_neg offset s rest hq]

theorem readLoop_none (offset maxR : Nat) :
    ∀ (segs : List Segment) (acc : List Nat) (last size0 : Nat),
      (∀ s ∈ segs, s.baseOffset ≤ offset) →
      readLoop offset maxR segs acc last size0 = (acc, last) := by
  intro segs
  induction segs with
  | nil => intro acc last size0 _; rfl
  | cons s rest ih =>
    intro acc last size0 hall
    have hs : ¬ offset < s.baseOffset := not_lt.mpr (hall s (by simp))
    simp only [readLoop, if_neg hs]
    exact ih acc last size0 (fun x hx => hall x (by simp [hx]))

theorem effectiveMaxToRead_pos (v : Nat) : 0 < effectiveMaxToRead v := by
  unfold effectiveMaxToRead
  by_cases h0 : intOfUint64 v ≤ 0
  · rw [if_pos h0]
    decide
  · rw [if_neg h0]
    by_cases h1 : (internalMaxToRead * 10 : Int) < intOfUint64 v
    · rw [if_pos h1]
      decide
    · rw [if_neg h1]
      push_neg at h0
      omega

theorem sorted_le_getLast (m : Segment) :
    ∀ segs : List Segment,
      segs.Pairwise (fun a b => a.baseOffset < b.baseOffset) →
      segs.getLast? = some m → ∀ s ∈ segs, s.baseOffset ≤ m.baseOffset := by
  intro segs
  induction segs with
  | nil => intro _ h; simp at h
  | cons x t ih =>
    intro hsort hlast s hs
    cases t with
    | nil =>
      simp at hlast hs
      simp [hs, hlast]
    | cons y u =>
      rw [List.getLast?_cons_cons] at hlast
      have hmem : m ∈ y :: u := by
        obtain ⟨ys, hys⟩ := List.getLast?_eq_some_iff.mp hlast
        rw [hys]
        simp
      rcases List.mem_cons.mp hs with hx | ht
      · subst hx
        exact le_of_lt ((List.pairwise_cons.mp hsort).1 m hmem)
      · exact ih (List.pairwise_cons.mp hsort).2 hlast s ht

theorem filter_getLast (p : Segment → Bool) (m : Segment) :
    ∀ l : List Segment, l.getLast? = some m → p m = true →
      (l.filter p).getLast? = some m := by
  intro l
  induction l with
  | nil => intro h; simp at h
  | cons x t ih =>
    intro hlast hpm
    cases t with
    | nil =>
      simp at hlast
      subst hlast
      simp [List.filter, hpm]
    | cons y u =>
      rw [List.getLast?_cons_cons] at hlast
      have hrec := ih hlast hpm
      by_cases hpx : p x
      · rw [List.filter_cons_of_pos hpx]
        have hne : (y :: u).filter p ≠ [] := by
          intro h
          rw [h] at hrec
          simp at hrec
        rw [getLast?_cons_ne x _ hne]
        exact hrec
      · rw [List.filter_cons_of_neg (by simpa using hpx)]
        exact hrec

/-- C2 counterexample: the caller value `2 ^ 63` is neither 0 nor capped at
ten times the internal constant — its `int64` interpretation is negative,
so the code falls back to the 64 MB default, not the 640 MB cap the claim
requires. -/
theorem c2_counterexample :
    effectiveMaxToRead (2 ^ 63) = internalMaxToRead ∧
      claimedMaxToRead (2 ^ 63) = internalMaxToRead * 10 ∧
      internalMaxToRead ≠ internalMaxToRead * 10 := by
  refine ⟨by decide, by decide, by decide⟩

/-- C2 (amended): `max_to_read = 0` defaults the ceiling to the internal
constant; caller values in `[1, 2 ^ 63)` are capped at ten times the
constant; values of `2 ^ 63` and above (negative once cast to `int`) also
default to the internal constant.  The ceiling is a hint acting at segment
boundaries: whenever the data lying past the offset reaches the ceiling
the returned payload reaches it too, and the payload always stays below
the ceiling plus one segment's size (any bound `B` on the qualifying
segments' sizes). -/
theorem c2_read_ceiling (v : Nat) (hv : v < u64Size) (l : Clog)
    (offset B : Nat)
    (hB : ∀ s ∈ l.segments, offset < s.baseOffset → s.data.length ≤ B) :
    effectiveMaxToRead v =
        (if v = 0 ∨ 2 ^ 63 ≤ v then internalMaxToRead
          else min v (internalMaxToRead * 10)) ∧
      (effectiveMaxToRead v ≤ qualTotal offset l.segments →
        effectiveMaxToRead v ≤ (Clog.Read l offset v).1.length) ∧
      (Clog.Read l offset v).1.length < effectiveMaxToRead v + B := by
  refine ⟨?_, ?_, ?_⟩
  · unfold effectiveMaxToRead intOfUint64 internalMaxToRead
    by_cases h1 : v < 2 ^ 63
    · by_cases h0 : v = 0
      · subst h0
        decide
      · rw [if_pos h1, if_neg (by push_neg; exact_mod_cast Nat.pos_of_ne_zero h0)]
        rw [if_neg (by omega : ¬(v = 0 ∨ 2 ^ 63 ≤ v))]
        by_cases h2 : ((64 * 1000 * 1000 * 10 : Nat) : Int) < (v : Int)
        · rw [if_pos (by exact_mod_cast h2)]
          have hge : (64 * 1000 * 1000 * 10 : Nat) ≤ v := by exact_mod_cast le_of_lt h2
          rw [Nat.min_eq_right hge]
        · have hle : v ≤ (64 * 1000 * 1000 * 10 : Nat) := by exact_mod_cast not_lt.mp h2
          rw [if_neg (by exact_mod_cast h2), Nat.min_eq_left hle]
          exact Int.toNat_natCast v
    · rw [if_neg h1]
      have hneg : (v : Int) - 2 ^ 64 ≤ 0 := by
        have hlt : (v : Int) < 2 ^ 64 := by exact_mod_cast hv
        omega
      rw [if_pos hneg, if_pos (Or.inr (not_lt.mp h1))]
  · intro hge
    exact readLoop_lower offset (effectiveMaxToRead v) l.segments [] 0 0 rfl
      (by omega)
  · exact readLoop_upper offset (effectiveMaxToRead v) B l.segments [] 0 0 rfl
      (effectiveMaxToRead_pos v) hB

/-- C2 witness: the amended theorem at `v = 5` on a log with a single
two-byte segment past offset 0: the ceiling is 5 and the returned payload
has 2 bytes, below `5 + 2`. -/
theorem c2_witness :
    (5 : Nat) < u64Size ∧
      effectiveMaxToRead 5 =
        (if (5 : Nat) = 0 ∨ 2 ^ 63 ≤ (5 : Nat) then internalMaxToRead
          else min 5 (internalMaxToRead * 10)) ∧
      (Clog.Read (Clog.mk true 100 100 100 [⟨1, 2, 100, 0, false, [7, 7], false⟩])
        0 5).1.length < effectiveMaxToRead 5 + 2 := by
  have h := c2_read_ceiling 5 (by decide)
    (Clog.mk true 100 100 100 [⟨1, 2, 100, 0, false, [7, 7], false⟩]) 0 2
    (by decide)
  exact ⟨by decide, h.1, h.2.2⟩

/-- C6 counterexample: with two sorted segments of 6 and 2 bytes and a
caller ceiling of 5, `Read(0)` stops after the first segment — the payload
is not the concatenation of both qualifying segments — and reading again
from the returned `last_read_offset` yields the second segment's bytes,
not an empty payload with offset 0. -/
theorem c6_counterexample :
    Clog.Read (Clog.mk true 100 100 100
        [⟨1, 6, 100, 0, false, [1, 2, 3, 4, 5, 6], false⟩,
          ⟨2, 2, 100, 0, false, [9, 9], false⟩]) 0 5 =
      ([1, 2, 3, 4, 5, 6], 1) ∧
    Clog.Read (Clog.mk true 100 100 100
        [⟨1, 6, 100, 0, false, [1, 2, 3, 4, 5, 6], false⟩,
          ⟨2, 2, 100, 0, false, [9, 9], false⟩]) 1 5 =
      ([9, 9], 2) ∧
    ([1, 2, 3, 4, 5, 6] : List Nat) ≠ [1, 2, 3, 4, 5, 6, 9, 9] ∧
    (([9, 9] : List Nat), (2 : Nat)) ≠ (([] : List Nat), (0 : Nat)) := by
  refine ⟨by decide, by decide, by decide, by decide⟩

/-- C6 (amended): provided the log's segments are sorted strictly
increasing, at least one segment lies past the offset, and the data past
the offset stays below the effective ceiling (the read does not stop
early), `Read(offset)` returns exactly the concatenation of the segments
with `base_offset > offset` (the offset itself excluded) in list order
together with the last such segment's base offset, and a second read from
that returned offset yields an empty payload with `last_read_offset = 0`. -/
theorem c6_read_exclusive_resume (l : Clog) (offset maxToRead : Nat)
    (hsorted : l.segments.Pairwise (fun a b => a.baseOffset < b.baseOffset))
    (hq : qualifying offset l.segments ≠ [])
    (hstop : qualTotal offset l.segments < effectiveMaxToRead maxToRead) :
    Clog.Read l offset maxToRead = readAllSpec offset l.segments ∧
      Clog.Read l (readAllSpec offset l.segments).2 maxToRead = ([], 0) := by
  have hread : Clog.Read l offset maxToRead = readAllSpec offset l.segments := by
    unfold Clog.Read readAllSpec
    rw [readLoop_no_stop offset (effectiveMaxToRead maxToRead) l.segments [] 0 0
      rfl (by omega)]
    simp
  refine ⟨hread, ?_⟩
  obtain ⟨m, hm⟩ : ∃ m, l.segments.getLast? = some m := by
    cases hls : l.segments.getLast? with
    | some m => exact ⟨m, rfl⟩
    | none =>
      exfalso
      apply hq
      cases hl : l.segments with
      | nil => simp [qualifying, hl]
      | cons a t =>
        rw [hl] at hls
        exact absurd hls (getLast?_cons_ne_none a t)
  have hmq : offset < m.baseOffset := by
    obtain ⟨s, hs⟩ := List.exists_mem_of_ne_nil _ hq
    have hsseg : s ∈ l.segments := List.mem_of_mem_filter hs
    have hsq : offset < s.baseOffset := by
      have := List.of_mem_filter hs
      simpa using this
    exact lt_of_lt_of_le hsq
      (sorted_le_getLast m l.segments hsorted hm s hsseg)
  have hql : (qualifying offset l.segments).getLast? = some m :=
    filter_getLast _ m l.segments hm (by simpa using hmq)
  have hsnd : (readAllSpec offset l.segments).2 = m.baseOffset := by
    unfold readAllSpec
    rw [hql]
  rw [hsnd]
  unfold Clog.Read
  rw [readLoop_none m.baseOffset (effectiveMaxToRead maxToRead) l.segments [] 0 0
    (fun s hs => sorted_le_getLast m l.segments hsorted hm s hs)]

/-- C6 witness: the amended theorem on a sorted two-segment log read with
the default ceiling (`max_to_read = 0`): the first read returns both
segments' bytes and offset 2, the second read returns `([], 0)`. -/
theorem c6_witness :
    qualifying 0 (Clog.mk true 100 100 100
        [⟨1, 6, 100, 0, false, [1, 2, 3, 4, 5, 6], false⟩,
          ⟨2, 2, 100, 0, false, [9, 9], false⟩]).segments ≠ [] ∧
      Clog.Read (Clog.mk true 100 100 100
          [⟨1, 6, 100, 0, false, [1, 2, 3, 4, 5, 6], false⟩,
            ⟨2, 2, 100, 0, false, [9, 9], false⟩]) 0 0 =
        readAllSpec 0 (Clog.mk true 100 100 100
          [⟨1, 6, 100, 0, false, [1, 2, 3, 4, 5, 6], false⟩,
            ⟨2, 2, 100, 0, false, [9, 9], false⟩]).segments ∧
      Clog.Read (Clog.mk true 100 100 100
          [⟨1, 6, 100, 0, false, [1, 2, 3, 4, 5, 6], false⟩,
            ⟨2, 2, 100, 0, false, [9, 9], false⟩])
        (readAllSpec 0 (Clog.mk true 100 100 100
          [⟨1, 6, 100, 0, false, [1, 2, 3, 4, 5, 6], false⟩,
            ⟨2, 2, 100, 0, false, [9, 9], false⟩]).segments).2 0 = ([], 0) := by
  have h := c6_read_exclusive_resume (Clog.mk true 100 100 100
      [⟨1, 6, 100, 0, false, [1, 2, 3, 4, 5, 6], false⟩,
        ⟨2, 2, 100, 0, false, [9, 9], false⟩]) 0 0
    (by decide) (by decide) (by decide)
  exact ⟨by decide, h.1, h.2⟩

theorem charDigit_toNat (d : Nat) (hd : d < 10) :
    (Char.ofNat (48 + d)).toNat = 48 + d := by
  interval_cases d <;> decide

theorem natChars_all_digits (n : Nat) : (natChars n).all isDigitChar = true := by
  unfold natChars
  by_cases h0 : n = 0
  · rw [if_pos h0]
    decide
  · rw [if_neg h0]
    rw [List.all_eq_true]
    intro c hc
    rw [List.mem_map] at hc
    obtain ⟨d, hd, hcd⟩ := hc
    rw [List.mem_reverse] at hd
    have hd10 : d < 10 := Nat.digits_lt_base (by norm_num) hd
    subst hcd
    unfold isDigitChar
    rw [charDigit_toNat d hd10]
    simp
    omega

theorem foldl_digit_chars (L : List Nat) (hL : ∀ d ∈ L, d < 10) :
    ∀ a : Nat,
      (L.reverse.map (fun d => Char.ofNat (48 + d))).foldl
          (fun acc c => acc * 10 + (c.toNat - 48)) a =
        a * 10 ^ L.length + Nat.ofDigits 10 L := by
  induction L with
  | nil => intro a; simp [Nat.ofDigits]
  | cons d L ih =>
    intro a
    have hd10 : d < 10 := hL d (by simp)
    rw [List.reverse_cons, List.map_append, List.foldl_append,
      ih (fun x hx => hL x (by simp [hx])) a]
    simp only [List.map_cons, List.map_nil, List.foldl_cons, List.foldl_nil]
    rw [charDigit_toNat d hd10, Nat.ofDigits_cons]
    have : 48 + d - 48 = d := by omega
    rw [this]
    simp only [List.length_cons, pow_succ]
    ring

theorem digitsVal_natChars (n : Nat) : digitsVal (natChars n) = n := by
  by_cases h0 : n = 0
  · subst h0; decide
  · unfold digitsVal natChars
    rw [if_neg h0]
    rw [foldl_digit_chars (Nat.digits 10 n)
      (fun d hd => Nat.digits_lt_base (by norm_num) hd) 0]
    simp [Nat.ofDigits_digits]

theorem parseUint64_natChars (n : Nat) (h : n < u64Size) :
    parseUint64 (natChars n) = some n := by
  unfold parseUint64
  have hne : (natChars n).isEmpty = false := by
    unfold natChars
    by_cases h0 : n = 0
    · rw [if_pos h0]; rfl
    · rw [if_neg h0]
      have : Nat.digits 10 n ≠ [] := Nat.digits_ne_nil_iff_ne_zero.mpr h0
      simp [List.isEmpty_iff, this]
  rw [hne]
  simp only [Bool.false_eq_true, if_false, natChars_all_digits n, if_true,
    digitsVal_natChars n, if_pos h]

theorem hasLogSuffix_canonical (n : Nat) :
    hasLogSuffix (canonicalLogName n) = true := by
  unfold hasLogSuffix canonicalLogName
  exact List.isSuffixOf_iff_suffix.mpr (List.suffix_append (natChars n) lFileSuffix)

theorem trimLog_canonical (n : Nat) : trimLog (canonicalLogName n) = natChars n := by
  unfold trimLog
  rw [hasLogSuffix_canonical n]
  simp only [if_true, canonicalLogName]
  have hlen : (natChars n ++ lFileSuffix).length - 4 = (natChars n).length := by
    simp [lFileSuffix]
  rw [hlen, List.take_left]

theorem parse_canonical (n : Nat) (h : n < u64Size) :
    parseUint64 (trimLog (canonicalLogName n)) = some n := by
  rw [trimLog_canonical n, parseUint64_natChars n h]

theorem canonicalLogName_inj (m n : Nat) (hm : m < u64Size) (hn : n < u64Size)
    (h : canonicalLogName m = canonicalLogName n) : m = n := by
  have := parse_canonical m hm
  rw [h, parse_canonical n hn] at this
  exact (Option.some.injEq _ _).mp this.symm

/-- The numeric value the open loop extracts from a directory entry. -/
def entryVal (e : DirEntry) : Nat := (parseUint64 (trimLog e.name)).getD 0

theorem openLoop_conforming (maxSegBytes now : Nat) :
    ∀ (dir : List DirEntry) (acc : List Segment),
      (∀ e ∈ dir, hasLogSuffix e.name = true ∧
        (parseUint64 (trimLog e.name)).isSome = true) →
      openLoop maxSegBytes now dir acc =
        .ok (acc ++ dir.map (fun e => newSegment now (entryVal e) maxSegBytes e.content)) := by
  intro dir
  induction dir with
  | nil => intro acc _; simp [openLoop]
  | cons e rest ih =>
    intro acc hc
    have he := hc e (by simp)
    cases hp : parseUint64 (trimLog e.name) with
    | none => rw [hp] at he; simp at he
    | some n =>
      simp only [openLoop, he.1, if_true, hp]
      rw [ih (acc ++ [newSegment now n maxSegBytes e.content])
        (fun x hx => hc x (by simp [hx]))]
      have hev : entryVal e = n := by unfold entryVal; rw [hp]; rfl
      simp [hev]

theorem openLoop_no_log (maxSegBytes now : Nat) :
    ∀ (dir : List DirEntry) (acc : List Segment),
      (∀ e ∈ dir, hasLogSuffix e.name = false) →
      openLoop maxSegBytes now dir acc = .ok acc := by
  intro dir
  induction dir with
  | nil => intro acc _; rfl
  | cons e rest ih =>
    intro acc hc
    have he := hc e (by simp)
    simp only [openLoop, he, Bool.false_eq_true, if_false]
    exact ih acc (fun x hx => hc x (by simp [hx]))

theorem openLoop_error (maxSegBytes now : Nat) :
    ∀ (dir : List DirEntry) (acc : List Segment),
      (∃ e ∈ dir, hasLogSuffix e.name = true ∧
        parseUint64 (trimLog e.name) = none) →
      openLoop maxSegBytes now dir acc = .error () := by
  intro dir
  induction dir with
  | nil => intro acc h; simp at h
  | cons e rest ih =>
    intro acc h
    obtain ⟨w, hw, hws, hwp⟩ := h
    by_cases hs : hasLogSuffix e.name = true
    · simp only [openLoop, hs, if_true]
      cases hp : parseUint64 (trimLog e.name) with
      | none => rfl
      | some n =>
        apply ih
        rcases List.mem_cons.mp hw with hwe | hwr
        · subst hwe
          rw [hp] at hwp
          simp at hwp
        · exact ⟨w, hwr, hws, hwp⟩
    · simp only [openLoop, hs, Bool.false_eq_true, if_false]
      apply ih
      rcases List.mem_cons.mp hw with hwe | hwr
      · subst hwe; exact absurd hws hs
      · exact ⟨w, hwr, hws, hwp⟩

/-- C5: opening a directory of distinct, conforming `<uint64>.log` files
yields exactly that many segments sorted strictly increasing by
`base_offset`; a directory with no `.log` entries yields one synthetic
segment with `base_offset = now`; a directory with any `.log` entry whose
stem does not parse as a decimal `uint64` yields a parse error and leaves
the (initially empty) in-memory segment list empty. -/
theorem c5_openDir_cases (l : Clog) (now : Nat) (dir : List DirEntry)
    (hinit : l.initialized = true) (hempty : l.segments = []) :
    ((∀ e ∈ dir, ∃ n, n < u64Size ∧ e.name = canonicalLogName n) → dir ≠ [] →
        (dir.map (fun e => e.name)).Nodup →
        ∃ segs, Clog.openDir l now dir = ({ l with segments := segs }, none) ∧
          segs.length = dir.length ∧
          segs.Pairwise (fun a b => a.baseOffset < b.baseOffset)) ∧
      ((∀ e ∈ dir, hasLogSuffix e.name = false) →
        Clog.openDir l now dir =
          ({ l with segments := [newSegment now now l.maxSegBytes []] }, none)) ∧
      ((∃ e ∈ dir, hasLogSuffix e.name = true ∧
          parseUint64 (trimLog e.name) = none) →
        Clog.openDir l now dir = (l, some .parseFilename) ∧
          (Clog.openDir l now dir).1.segments = []) := by
  refine ⟨?_, ?_, ?_⟩
  · intro hconf hne hnodup
    have hc : ∀ e ∈ dir, hasLogSuffix e.name = true ∧
        (parseUint64 (trimLog e.name)).isSome = true := by
      intro e he
      obtain ⟨n, hn, hname⟩ := hconf e he
      rw [hname]
      exact ⟨hasLogSuffix_canonical n, by rw [parse_canonical n hn]; rfl⟩
    have hloop := openLoop_conforming l.maxSegBytes now dir [] hc
    rw [List.nil_append] at hloop
    set raw := dir.map (fun e => newSegment now (entryVal e) l.maxSegBytes e.content)
      with hraw
    have hrawne2 : raw ≠ [] := by
      rw [hraw]
      simp only [ne_eq, List.map_eq_nil_iff]
      exact hne
    have hrawne : raw.isEmpty = false := by
      cases hrw : raw with
      | nil => exact absurd hrw hrawne2
      | cons a t => rfl
    refine ⟨sortSegs raw, ?_, ?_, ?_⟩
    · unfold Clog.openDir
      rw [hinit]
      simp only [Bool.not_true, Bool.false_eq_true, if_false]
      simp only [hloop, hrawne, Bool.false_eq_true, if_false]
    · unfold sortSegs
      rw [(List.mergeSort_perm raw _).length_eq]
      simp [hraw]
    · have hvals : (raw.map (fun s => s.baseOffset)).Nodup := by
        have hmm : raw.map (fun s => s.baseOffset) = dir.map entryVal := by
          simp [hraw, newSegment]
        rw [hmm]
        have hmap2 : dir.map entryVal =
            (dir.map (fun e => e.name)).map
              (fun nm => (parseUint64 (trimLog nm)).getD 0) := by
          rw [List.map_map]
          rfl
        rw [hmap2]
        apply List.Nodup.map_on ?_ hnodup
        intro x hx y hy hxy
        rw [List.mem_map] at hx hy
        obtain ⟨ex, hex, hexn⟩ := hx
        obtain ⟨ey, hey, heyn⟩ := hy
        obtain ⟨nx, hnx, hnxn⟩ := hconf ex hex
        obtain ⟨ny, hny, hnyn⟩ := hconf ey hey
        subst hexn heyn
        rw [hnxn, hnyn] at hxy ⊢
        rw [parse_canonical nx hnx, parse_canonical ny hny] at hxy
        simp at hxy
        rw [hxy]
      have hperm : (sortSegs raw).Perm raw := List.mergeSort_perm raw _
      have hle : (sortSegs raw).Pairwise
          (fun a b => (decide (a.baseOffset ≤ b.baseOffset)) = true) :=
        List.sorted_mergeSort
          (fun a b c hab hbc => by
            simp only [decide_eq_true_eq] at hab hbc ⊢
            omega)
          (fun a b => by
            rw [Bool.or_eq_true, decide_eq_true_eq, decide_eq_true_eq]
            exact Nat.le_total a.baseOffset b.baseOffset)
          raw
      have hvals2 : ((sortSegs raw).map (fun s => s.baseOffset)).Nodup :=
        ((hperm.map (fun s => s.baseOffset)).nodup_iff).mpr hvals
      have hne2 : (sortSegs raw).Pairwise
          (fun a b => a.baseOffset ≠ b.baseOffset) :=
        List.pairwise_map.mp hvals2
      have := hle.and hne2
      apply this.imp
      intro a b hab
      have h1 := hab.1
      simp only [decide_eq_true_eq] at h1
      exact lt_of_le_of_ne h1 hab.2
  · intro hnl
    unfold Clog.openDir
    rw [hinit]
    simp only [Bool.not_true, Bool.false_eq_true, if_false]
    simp only [openLoop_no_log l.maxSegBytes now dir [] hnl]
    rfl
  · intro hbad
    have herr : Clog.openDir l now dir = (l, some .parseFilename) := by
      unfold Clog.openDir
      rw [hinit]
      simp only [Bool.not_true, Bool.false_eq_true, if_false]
      simp only [openLoop_error l.maxSegBytes now dir [] hbad]
    exact ⟨herr, by rw [herr, hempty]⟩

/-- C5 witness: the theorem applied to a concrete directory holding
`3.log` (one byte) and `1.log` (empty): the result is two segments sorted
`1 < 3`; and to the failure conjunct with the directory holding
`x.log`. -/
theorem c5_witness :
    ((Clog.openDir (Clog.mk true 78 100 100 []) 50
        [⟨canonicalLogName 3, [7]⟩, ⟨canonicalLogName 1, []⟩]).2 = none ∧
      (Clog.openDir (Clog.mk true 78 100 100 []) 50
        [⟨canonicalLogName 3, [7]⟩, ⟨canonicalLogName 1, []⟩]).1.segments.length = 2) ∧
      Clog.openDir (Clog.mk true 78 100 100 []) 50
        [⟨['x', '.', 'l', 'o', 'g'], []⟩] =
        (Clog.mk true 78 100 100 [], some .parseFilename) := by
  constructor
  · obtain ⟨segs, hs, hlen, _⟩ :=
      (c5_openDir_cases (Clog.mk true 78 100 100 []) 50
        [⟨canonicalLogName 3, [7]⟩, ⟨canonicalLogName 1, []⟩] rfl rfl).1
        (by
          intro e he
          rcases List.mem_cons.mp he with h | h
          · exact ⟨3, by decide, by rw [h]⟩
          · rcases List.mem_cons.mp h with h2 | h2
            · exact ⟨1, by decide, by rw [h2]⟩
            · simp at h2)
        (by simp)
        (by
          simp only [List.map_cons, List.map_nil, List.nodup_cons,
            List.mem_singleton, List.not_mem_nil, not_false_iff, and_true,
            List.nodup_nil]
          intro h
          have h31 := canonicalLogName_inj 3 1 (by decide) (by decide) h
          omega)
    rw [hs]
    exact ⟨rfl, hlen⟩
  · exact ((c5_openDir_cases (Clog.mk true 78 100 100 []) 50
      [⟨['x', '.', 'l', 'o', 'g'], []⟩] rfl rfl).2.2
      ⟨⟨['x', '.', 'l', 'o', 'g'], []⟩, by simp, by decide, by decide⟩).1

end Shifta
